import Mathlib

/-!
# Verification of the SEP HDC core (reference_impl/python/hdc)

Shallow embedding of the two core modules:

* `ternary_encoder.py` — `TernaryHDCEncoder`: ternarization, 2-bit
  packing/unpacking, ternary cosine similarity;
* `text_encoder.py` — `HDCTextEncoder`: deterministic token vectors,
  positional binding, majority-vote bundling, Hamming similarity.

Python floats are modelled as `ℚ` (every concrete value appearing in the
claims is exactly representable), byte values as `ℕ`, torch boolean
tensors as `List Bool`.  Stateful use of torch's global random generator
is modelled by explicit state passing (see `randBits` below).
-/

namespace SEP

/-! ## `TernaryHDCEncoder.pack_ternary` (ternary_encoder.py, lines 144–181)

`pack_ternary` first converts the float tensor with
`vector.cpu().numpy().astype(np.int8)` — a truncation toward zero — and
then appends one 2-bit code per value equal to -1, 0 or +1 (any other
value falls through the `if/elif` chain and is silently dropped).
-/

/-- C-style float→integer truncation toward zero: the first step of
`astype(np.int8)`. -/
def ratTrunc (q : ℚ) : ℤ :=
  q.num.tdiv (q.den : ℤ)

/-- `astype(np.int8)`: the float is truncated toward zero to an integer
whose low byte is then reinterpreted as a signed int8 (two's-complement
wrap into [-128, 127]); e.g. 255.5 casts to -1 and 257.5 to 1. -/
def int8_cast (q : ℚ) : ℤ :=
  (ratTrunc q + 128) % 256 - 128

/-- The `if val == 0 / elif val == 1 / elif val == -1` chain of
`pack_ternary`: 0 ↦ 0b00, +1 ↦ 0b01, -1 ↦ 0b10, anything else skipped. -/
def encBit (z : ℤ) : Option ℕ :=
  if z = 0 then some 0
  else if z = 1 then some 1
  else if z = -1 then some 2
  else none

/-- The `bits` list built by the first loop of `pack_ternary`, applied
to the int8-cast values. -/
def packBits (v : List ℚ) : List ℕ :=
  v.filterMap (fun x => encBit (int8_cast x))

/-- The second loop of `pack_ternary`: four 2-bit codes per byte,
first element in bits 7–6 (`bits[i+j] << (6 - j*2)`), missing trailing
elements left as zero bits. -/
def packBytesFromBits : List ℕ → List ℕ
  | [] => []
  | [b0] => [b0 <<< 6]
  | [b0, b1] => [b0 <<< 6 ||| b1 <<< 4]
  | [b0, b1, b2] => [b0 <<< 6 ||| b1 <<< 4 ||| b2 <<< 2]
  | b0 :: b1 :: b2 :: b3 :: rest =>
      (b0 <<< 6 ||| b1 <<< 4 ||| b2 <<< 2 ||| b3 <<< 0) :: packBytesFromBits rest

/-- `TernaryHDCEncoder.pack_ternary`. -/
def pack_ternary (v : List ℚ) : List ℕ :=
  packBytesFromBits (packBits v)

/-! ## `TernaryHDCEncoder.unpack_ternary` (ternary_encoder.py, lines 183–211) -/

/-- `for shift in [6, 4, 2, 0]: bits = (byte >> shift) & 0b11`. -/
def fieldsOfByte (b : ℕ) : List ℕ :=
  [b >>> 6 &&& 3, b >>> 4 &&& 3, b >>> 2 &&& 3, b >>> 0 &&& 3]

/-- All 2-bit fields of a byte buffer, in stream order. -/
def bytesToFields : List ℕ → List ℕ
  | [] => []
  | b :: rest => fieldsOfByte b ++ bytesToFields rest

/-- The `if bits == 0b00 / elif 0b01 / elif 0b10` chain of
`unpack_ternary`; the reserved code 0b11 appends nothing. -/
def decodeField (f : ℕ) : Option ℚ :=
  if f = 0 then some 0
  else if f = 1 then some 1
  else if f = 2 then some (-1)
  else none

/-- The nested loop of `unpack_ternary` over the flattened field stream:
append the decoded value (if any), then `if len(values) >= hd_dim: break`. -/
def unpackFields : List ℕ → List ℚ → ℕ → List ℚ
  | [], values, _ => values
  | f :: rest, values, d =>
      let values' := match decodeField f with
        | some x => values ++ [x]
        | none => values
      if d ≤ values'.length then values' else unpackFields rest values' d

/-- `TernaryHDCEncoder.unpack_ternary` (the final `values[:hd_dim]`). -/
def unpack_ternary (bs : List ℕ) (hd_dim : ℕ) : List ℚ :=
  (unpackFields (bytesToFields bs) [] hd_dim).take hd_dim

/-! ### Packing lemmas -/

lemma fieldsOfByte_one : ∀ b0 < 4,
    fieldsOfByte (b0 <<< 6) = [b0, 0, 0, 0] := by decide

lemma fieldsOfByte_two : ∀ b0 < 4, ∀ b1 < 4,
    fieldsOfByte (b0 <<< 6 ||| b1 <<< 4) = [b0, b1, 0, 0] := by decide

lemma fieldsOfByte_three : ∀ b0 < 4, ∀ b1 < 4, ∀ b2 < 4,
    fieldsOfByte (b0 <<< 6 ||| b1 <<< 4 ||| b2 <<< 2) = [b0, b1, b2, 0] := by decide

lemma fieldsOfByte_four : ∀ b0 < 4, ∀ b1 < 4, ∀ b2 < 4, ∀ b3 < 4,
    fieldsOfByte (b0 <<< 6 ||| b1 <<< 4 ||| b2 <<< 2 ||| b3 <<< 0) = [b0, b1, b2, b3] := by
  decide

/-- The field stream of a packed buffer is the original 2-bit code list
followed by the zero-fill of the final partial byte. -/
lemma bytesToFields_packBytes : ∀ bits : List ℕ, (∀ b ∈ bits, b < 4) →
    bytesToFields (packBytesFromBits bits) =
      bits ++ List.replicate ((4 - bits.length % 4) % 4) 0 := by
  intro bits
  induction bits using packBytesFromBits.induct with
  | case1 => intro _; rfl
  | case2 b0 =>
    intro h
    have h0 := h b0 (by simp)
    simp [packBytesFromBits, bytesToFields, fieldsOfByte_one b0 h0]
  | case3 b0 b1 =>
    intro h
    have h0 := h b0 (by simp)
    have h1 := h b1 (by simp)
    simp [packBytesFromBits, bytesToFields, fieldsOfByte_two b0 h0 b1 h1]
  | case4 b0 b1 b2 =>
    intro h
    have h0 := h b0 (by simp)
    have h1 := h b1 (by simp)
    have h2 := h b2 (by simp)
    simp [packBytesFromBits, bytesToFields, fieldsOfByte_three b0 h0 b1 h1 b2 h2]
  | case5 b0 b1 b2 b3 rest ih =>
    intro h
    have h0 := h b0 (by simp)
    have h1 := h b1 (by simp)
    have h2 := h b2 (by simp)
    have h3 := h b3 (by simp)
    have hrest : ∀ b ∈ rest, b < 4 := fun b hb => h b (by simp [hb])
    have hmod : (b0 :: b1 :: b2 :: b3 :: rest).length % 4 = rest.length % 4 := by
      simp only [List.length_cons]
      omega
    rw [packBytesFromBits, bytesToFields, fieldsOfByte_four b0 h0 b1 h1 b2 h2 b3 h3,
      ih hrest, hmod]
    simp

/-- One byte per four 2-bit codes, rounding up. -/
lemma packBytes_length : ∀ bits : List ℕ,
    (packBytesFromBits bits).length = (bits.length + 3) / 4 := by
  intro bits
  induction bits using packBytesFromBits.induct with
  | case1 => rfl
  | case2 b0 => simp [packBytesFromBits]
  | case3 b0 b1 => simp [packBytesFromBits]
  | case4 b0 b1 b2 => simp [packBytesFromBits]
  | case5 b0 b1 b2 b3 rest ih =>
    rw [packBytesFromBits]
    simp only [List.length_cons, List.length, ih]
    omega

/-- The early-exit accumulation loop of `unpack_ternary`, truncated to
`d` elements, coincides with decoding the whole field stream and then
truncating. -/
lemma unpackFields_take : ∀ (fields : List ℕ) (values : List ℚ) (d : ℕ),
    (unpackFields fields values d).take d = (values ++ fields.filterMap decodeField).take d := by
  intro fields
  induction fields with
  | nil => intro values d; simp [unpackFields]
  | cons f rest ih =>
    intro values d
    rw [unpackFields, List.filterMap_cons]
    cases hf : decodeField f with
    | none =>
      simp only [hf]
      by_cases hd : d ≤ values.length
      · rw [if_pos hd, List.take_append_of_le_length hd]
      · rw [if_neg hd, ih]
    | some x =>
      simp only [hf]
      by_cases hd : d ≤ (values ++ [x]).length
      · rw [if_pos hd,
          show values ++ x :: rest.filterMap decodeField
              = (values ++ [x]) ++ rest.filterMap decodeField by simp,
          List.take_append_of_le_length hd]
      · rw [if_neg hd, ih]
        simp

/-- Decoding the zero-fill fields of the final partial byte yields zeros. -/
lemma filterMap_decode_replicate (r : ℕ) :
    (List.replicate r 0).filterMap decodeField = List.replicate r (0 : ℚ) := by
  induction r with
  | zero => rfl
  | succ n ih => simp [List.replicate_succ, List.filterMap_cons, decodeField, ih]

/-- For a valid ternary vector the 2-bit code list decodes back to the
vector itself, has one code per element, and every code is below 4. -/
lemma packBits_valid : ∀ v : List ℚ, (∀ x ∈ v, x = -1 ∨ x = 0 ∨ x = 1) →
    (packBits v).filterMap decodeField = v ∧
    (packBits v).length = v.length ∧
    ∀ b ∈ packBits v, b < 4 := by
  intro v
  induction v with
  | nil => intro _; refine ⟨rfl, rfl, by simp [packBits]⟩
  | cons x xs ih =>
    intro h
    have hx := h x (List.mem_cons_self x xs)
    have hxs := ih fun y hy => h y (List.mem_cons_of_mem _ hy)
    obtain ⟨e1, e2, e3⟩ := hxs
    have hcons : ∀ b : ℕ, encBit (int8_cast x) = some b → decodeField b = some x →
        (packBits (x :: xs)).filterMap decodeField = x :: xs ∧
        (packBits (x :: xs)).length = xs.length + 1 ∧
        ∀ c ∈ packBits (x :: xs), c < 4 := by
      intro b hb hdb
      have hb4 : b < 4 := by
        revert hb; unfold encBit
        split_ifs <;> intro hb <;> simp_all <;> omega
      constructor
      · simp [packBits, List.filterMap_cons, hb, hdb]
        exact e1
      constructor
      · simp [packBits, List.filterMap_cons, hb]
        simpa [packBits] using e2
      · intro c hc
        simp only [packBits, List.filterMap_cons, hb] at hc
        rcases List.mem_cons.mp hc with rfl | hc
        · exact hb4
        · exact e3 c hc
    rcases hx with rfl | rfl | rfl
    · exact (by simpa using hcons 2 (by decide) (by decide))
    · exact (by simpa using hcons 0 (by decide) (by decide))
    · exact (by simpa using hcons 1 (by decide) (by decide))

/-- Unpacking a packed valid ternary vector decodes the codes and the
zero padding, before truncation to the requested dimension. -/
lemma unpack_pack_eq (v : List ℚ) (hv : ∀ x ∈ v, x = -1 ∨ x = 0 ∨ x = 1) (k : ℕ) :
    unpack_ternary (pack_ternary v) k
      = (v ++ List.replicate ((4 - v.length % 4) % 4) 0).take k := by
  obtain ⟨e1, e2, e3⟩ := packBits_valid v hv
  rw [unpack_ternary, pack_ternary, unpackFields_take, List.nil_append,
    bytesToFields_packBytes _ e3, List.filterMap_append, e1, filterMap_decode_replicate, e2]

/-! ### Claim theorems for pack/unpack -/

/-- C1: for every valid ternary vector `v` of length `D` (every element
in {-1, 0, +1}), unpacking the result of packing it with the original
dimension reproduces `v` exactly: `unpack(pack(v), D) == v`. -/
theorem unpack_pack_roundtrip (v : List ℚ) (hv : ∀ x ∈ v, x = -1 ∨ x = 0 ∨ x = 1) :
    unpack_ternary (pack_ternary v) v.length = v := by
  rw [unpack_pack_eq v hv, List.take_append_of_le_length (Nat.le_refl _), List.take_length]

/-- Witness for C1 at the concrete ternary vector `[1, -1, 0, 1, 0]`. -/
theorem unpack_pack_roundtrip_witness :
    (∀ x ∈ ([1, -1, 0, 1, 0] : List ℚ), x = -1 ∨ x = 0 ∨ x = 1) ∧
    unpack_ternary (pack_ternary [1, -1, 0, 1, 0]) ([1, -1, 0, 1, 0] : List ℚ).length
      = [1, -1, 0, 1, 0] :=
  ⟨by decide, unpack_pack_roundtrip [1, -1, 0, 1, 0] (by decide)⟩

/-- C2 counterexample: unpacking the one-byte buffer `0b11000000`, whose
top 2-bit field is the reserved code 0b11, with `hd_dim = 1` does not
fail: `unpack_ternary` skips the reserved field and returns the vector
`[0]` built from the following field. -/
theorem unpack_reserved_code_counterexample :
    unpack_ternary [0b11000000] 1 = [0] := by decide

/-- C2 amended: `unpack_ternary` never reports an error.  It returns the
decoded 2-bit field stream with every reserved 0b11 field silently
dropped (so later elements shift into earlier positions), truncated to
`hd_dim` elements; a buffer shorter than `ceil(hd_dim/4)` bytes
consequently yields a vector with fewer than `hd_dim` elements instead
of a failure. -/
theorem unpack_skips_reserved_and_never_fails (bs : List ℕ) (hd_dim : ℕ) :
    unpack_ternary bs hd_dim = ((bytesToFields bs).filterMap decodeField).take hd_dim ∧
    (unpack_ternary bs hd_dim).length ≤ hd_dim := by
  constructor
  · rw [unpack_ternary, unpackFields_take, List.nil_append]
  · exact List.length_take_le _ _

/-- C7: for every valid ternary vector the packed buffer has exactly
`ceil(len(v)/4) = (len(v)+3)/4` bytes. -/
theorem pack_ternary_length (v : List ℚ) (hv : ∀ x ∈ v, x = -1 ∨ x = 0 ∨ x = 1) :
    (pack_ternary v).length = (v.length + 3) / 4 := by
  obtain ⟨-, e2, -⟩ := packBits_valid v hv
  rw [pack_ternary, packBytes_length, e2]

/-- Witness for C7: packing a 10000-element ternary vector yields
exactly 2500 bytes. -/
theorem pack_ternary_length_witness :
    (∀ x ∈ List.replicate 10000 (0 : ℚ), x = -1 ∨ x = 0 ∨ x = 1) ∧
    (pack_ternary (List.replicate 10000 (0 : ℚ))).length = 2500 := by
  have h : ∀ x ∈ List.replicate 10000 (0 : ℚ), x = -1 ∨ x = 0 ∨ x = 1 := by
    intro x hx
    rw [List.eq_of_mem_replicate hx]
    exact Or.inr (Or.inl rfl)
  refine ⟨h, ?_⟩
  have h2 := pack_ternary_length (List.replicate 10000 (0 : ℚ)) h
  rw [List.length_replicate, show (10000 + 3) / 4 = 2500 from by norm_num] at h2
  exact h2

/-- C9: for every valid ternary vector `v` and every `k ≤ len(v)`,
unpacking the packed buffer with requested dimension `k` returns exactly
the first `k` elements of `v`. -/
theorem unpack_pack_take (v : List ℚ) (k : ℕ)
    (hv : ∀ x ∈ v, x = -1 ∨ x = 0 ∨ x = 1) (hk : k ≤ v.length) :
    unpack_ternary (pack_ternary v) k = v.take k := by
  rw [unpack_pack_eq v hv, List.take_append_of_le_length hk]

/-- Witness for C9 at `v = [1, -1, 0]`, `k = 2`. -/
theorem unpack_pack_take_witness :
    ((∀ x ∈ ([1, -1, 0] : List ℚ), x = -1 ∨ x = 0 ∨ x = 1) ∧ 2 ≤ ([1, -1, 0] : List ℚ).length) ∧
    unpack_ternary (pack_ternary [1, -1, 0]) 2 = ([1, -1, 0] : List ℚ).take 2 :=
  ⟨⟨by decide, by decide⟩, unpack_pack_take [1, -1, 0] 2 (by decide) (by decide)⟩

/-- C10 counterexample: inputs outside {-1, 0, +1} are not always
omitted.  `1/2` is cast to 0 by `astype(np.int8)` and encoded as the
2-bit code 0b00, giving the one-byte buffer `[0]` rather than the empty
buffer that packing the empty kept-subsequence would produce; and
`511/2 = 255.5` is truncated to 255 and int8-wrapped to -1, so it is
encoded as 0b10 (buffer `[0b10000000] = [128]`). -/
theorem pack_nonternary_counterexample :
    pack_ternary [(Rat.mk' 1 2 : ℚ)] = [0] ∧
    ¬((Rat.mk' 1 2 : ℚ) = -1 ∨ (Rat.mk' 1 2 : ℚ) = 0 ∨ (Rat.mk' 1 2 : ℚ) = 1) ∧
    pack_ternary [(Rat.mk' 511 2 : ℚ)] = [128] ∧
    ¬((Rat.mk' 511 2 : ℚ) = -1 ∨ (Rat.mk' 511 2 : ℚ) = 0 ∨ (Rat.mk' 511 2 : ℚ) = 1) ∧
    pack_ternary ([] : List ℚ) = [] := by
  refine ⟨by decide, by decide, by decide, by decide, rfl⟩

/-- C10 amended: `pack_ternary` never raises.  It first applies the
`astype(np.int8)` cast — truncation toward zero, then the
two's-complement wrap into [-128, 127] — and then encodes exactly the
in-order subsequence of elements whose cast value lies in {-1, 0, +1},
silently omitting every other element, so later elements occupy shifted
positions; the buffer length is determined by the number of kept
elements. -/
theorem pack_int8_casts_then_filters (v : List ℚ) :
    pack_ternary v
      = pack_ternary (v.filter fun x =>
          decide (int8_cast x = -1 ∨ int8_cast x = 0 ∨ int8_cast x = 1)) ∧
    (pack_ternary v).length
      = ((v.countP fun x =>
          decide (int8_cast x = -1 ∨ int8_cast x = 0 ∨ int8_cast x = 1)) + 3) / 4 := by
  have hbits : ∀ w : List ℚ,
      packBits (w.filter fun x =>
        decide (int8_cast x = -1 ∨ int8_cast x = 0 ∨ int8_cast x = 1)) = packBits w ∧
      (packBits w).length
        = w.countP fun x => decide (int8_cast x = -1 ∨ int8_cast x = 0 ∨ int8_cast x = 1) := by
    intro w
    simp only [packBits]
    induction w with
    | nil => exact ⟨rfl, rfl⟩
    | cons x xs ih =>
      obtain ⟨ih1, ih2⟩ := ih
      simp only [Bool.decide_or] at ih1 ih2
      by_cases hx : int8_cast x = -1 ∨ int8_cast x = 0 ∨ int8_cast x = 1
      · have e1 : encBit (-1) = some 2 := by decide
        have e2 : encBit 0 = some 0 := by decide
        have e3 : encBit 1 = some 1 := by decide
        rcases hx with hx | hx | hx <;>
          constructor <;>
          simp [List.filter_cons, List.filterMap_cons, List.countP_cons, hx,
            e1, e2, e3, ih1, ih2]
      · have hnone : encBit (int8_cast x) = none := by
          simp only [encBit]
          split_ifs with h1 h2 h3
          · exact absurd (Or.inr (Or.inl h1)) hx
          · exact absurd (Or.inr (Or.inr h2)) hx
          · exact absurd (Or.inl h3) hx
          · rfl
        have hne1 : ¬int8_cast x = -1 := fun h => hx (Or.inl h)
        have hne2 : ¬int8_cast x = 0 := fun h => hx (Or.inr (Or.inl h))
        have hne3 : ¬int8_cast x = 1 := fun h => hx (Or.inr (Or.inr h))
        constructor <;>
          simp [List.filter_cons, List.filterMap_cons, List.countP_cons, hnone,
            hne1, hne2, hne3, ih1, ih2]
  refine ⟨?_, ?_⟩
  · rw [pack_ternary, pack_ternary, (hbits v).1]
  · rw [pack_ternary, packBytes_length, (hbits v).2]

/-! ## Similarity operations

`TernaryHDCEncoder.cosine_similarity` (ternary_encoder.py, lines
122–142) and `HDCTextEncoder.cosine_similarity` (text_encoder.py, lines
146–157). -/

/-- `torch.dot`. -/
def dotList (vec1 vec2 : List ℚ) : ℚ :=
  (List.zipWith (· * ·) vec1 vec2).sum

/-- Squared euclidean norm; the code's `torch.norm(v)` is its square
root. -/
def normSq (vec : List ℚ) : ℚ :=
  dotList vec vec

/-- `TernaryHDCEncoder.cosine_similarity`: `dot/(norm1*norm2)` mapped to
[0,1] by `(cos+1)/2`, returning 0.0 when either norm is zero.  Since
`torch.norm v = sqrt (normSq v)` vanishes exactly when `normSq v` does,
the zero-norm guard is stated on the squared norms. -/
noncomputable def cosine_similarity (vec1 vec2 : List ℚ) : ℝ :=
  if normSq vec1 = 0 ∨ normSq vec2 = 0 then 0
  else ((dotList vec1 vec2 : ℝ)
          / (Real.sqrt ((normSq vec1 : ℚ) : ℝ) * Real.sqrt ((normSq vec2 : ℚ) : ℝ)) + 1) / 2

/-- `HDCTextEncoder.cosine_similarity`: 1 minus normalized Hamming
distance (`diff = xor`, `hamming_distance = diff.sum()`, divided by
`self.dimensions`). -/
def binary_cosine_similarity (dimensions : ℕ) (vec1 vec2 : List Bool) : ℚ :=
  1 - ((List.zipWith xor vec1 vec2).count true : ℚ) / (dimensions : ℚ)

lemma dotList_self_nonneg (v : List ℚ) : 0 ≤ dotList v v := by
  induction v with
  | nil => simp [dotList]
  | cons x xs ih =>
    have : dotList (x :: xs) (x :: xs) = x * x + dotList xs xs := by
      simp [dotList, List.zipWith]
    rw [this]
    exact add_nonneg (mul_self_nonneg x) ih

lemma zipWith_xor_self (v : List Bool) :
    List.zipWith xor v v = List.replicate v.length false := by
  induction v with
  | nil => rfl
  | cons x xs ih => simp [List.zipWith, ih, List.replicate_succ]

/-! ### Claim theorems for similarity -/

/-- C3 counterexample: the binary Hamming-based similarity of the
all-zero vector with itself (dimension 4) is 1.0, not the 0.0 the
degenerate-norm rule would require. -/
theorem binary_similarity_zero_zero_counterexample :
    binary_cosine_similarity 4 [false, false, false, false] [false, false, false, false] = 1 := by
  simp [binary_cosine_similarity]

/-- C3 amended: self-similarity is 1.0 under both operations (for the
ternary cosine similarity whenever the vector's norm is nonzero, for the
binary Hamming similarity unconditionally — including the all-zero
vector); the zero-norm ⇒ 0.0 degenerate rule holds only for the ternary
cosine similarity. -/
theorem similarity_self_one_and_ternary_degenerate_zero :
    (∀ v : List ℚ, normSq v ≠ 0 → cosine_similarity v v = 1) ∧
    (∀ (dimensions : ℕ) (v : List Bool), binary_cosine_similarity dimensions v v = 1) ∧
    (∀ v w : List ℚ, normSq v = 0 ∨ normSq w = 0 → cosine_similarity v w = 0) := by
  refine ⟨?_, ?_, ?_⟩
  · intro v hv
    have hcond : ¬(normSq v = 0 ∨ normSq v = 0) := by
      intro h
      exact hv (h.elim id id)
    have hnn : (0 : ℝ) ≤ ((normSq v : ℚ) : ℝ) := by
      exact_mod_cast dotList_self_nonneg v
    have hne : ((normSq v : ℚ) : ℝ) ≠ 0 := by
      exact_mod_cast hv
    rw [cosine_similarity, if_neg hcond]
    have hdot : (dotList v v : ℚ) = normSq v := rfl
    rw [hdot, Real.mul_self_sqrt hnn, div_self hne]
    norm_num
  · intro dimensions v
    rw [binary_cosine_similarity, zipWith_xor_self]
    simp [List.count_replicate]
  · intro v w h
    rw [cosine_similarity, if_pos h]

/-- Witness for C3 (amended) at `v = [1]` (nonzero norm, self-similarity
1) and at the degenerate pair `([0], [1])` (zero norm, similarity 0). -/
theorem similarity_self_one_witness :
    (normSq [(1 : ℚ)] ≠ 0 ∧ cosine_similarity [(1 : ℚ)] [(1 : ℚ)] = 1) ∧
    ((normSq [(0 : ℚ)] = 0 ∨ normSq [(1 : ℚ)] = 0) ∧
      cosine_similarity [(0 : ℚ)] [(1 : ℚ)] = 0) :=
  ⟨⟨by norm_num [normSq, dotList],
    similarity_self_one_and_ternary_degenerate_zero.1 [(1 : ℚ)]
      (by norm_num [normSq, dotList])⟩,
   ⟨Or.inl (by norm_num [normSq, dotList]),
    similarity_self_one_and_ternary_degenerate_zero.2.2 [(0 : ℚ)] [(1 : ℚ)]
      (Or.inl (by norm_num [normSq, dotList]))⟩⟩

/-! ## `TernaryHDCEncoder.ternarize` (ternary_encoder.py, lines 69–93) -/

/-- `torch.quantile` with the default linear interpolation on a 1-D
tensor: sort ascending, take `p = q·(n−1)`, and interpolate between the
entries at positions `⌊p⌋` and `⌊p⌋+1` with weight `p − ⌊p⌋` (out-of-range
positions read as 0; they are only reached with weight 0 or on inputs
where torch itself errors, such as the empty tensor). -/
def quantile (q : ℚ) (l : List ℚ) : ℚ :=
  let s := List.insertionSort (· ≤ ·) l
  let p := q * ((l.length : ℚ) - 1)
  let a := s.getD (⌊p⌋).toNat 0
  let b := s.getD ((⌊p⌋).toNat + 1) 0
  a + (p - (⌊p⌋ : ℚ)) * (b - a)

/-- The `threshold` local of `ternarize`: the `sparsity`-quantile of the
elementwise absolute values. -/
def ternary_threshold (sparsity : ℚ) (vectors : List ℚ) : ℚ :=
  quantile sparsity (vectors.map fun x => |x|)

/-- `TernaryHDCEncoder.ternarize` on one row: +1 where
`value > threshold`, −1 where `value < −threshold`, else 0 (the −1 mask
is assigned second in the source, so it would win on the — impossible
for a nonnegative threshold — overlap). -/
def ternarize (sparsity : ℚ) (vectors : List ℚ) : List ℚ :=
  vectors.map fun x =>
    if x < -ternary_threshold sparsity vectors then -1
    else if x > ternary_threshold sparsity vectors then 1 else 0

/-- The interpolated quantile of a list of nonnegative values is
nonnegative (it is a convex combination of two nonnegative reads). -/
lemma quantile_nonneg (q : ℚ) (l : List ℚ) (h : ∀ x ∈ l, 0 ≤ x) :
    0 ≤ quantile q l := by
  unfold quantile
  have hs : ∀ x ∈ List.insertionSort (· ≤ ·) l, 0 ≤ x := fun x hx =>
    h x ((List.perm_insertionSort (· ≤ ·) l).mem_iff.mp hx)
  have hget : ∀ j : ℕ, 0 ≤ (List.insertionSort (· ≤ ·) l).getD j 0 := by
    intro j
    by_cases hj : j < (List.insertionSort (· ≤ ·) l).length
    · rw [List.getD_eq_getElem _ _ hj]
      exact hs _ (List.getElem_mem hj)
    · rw [List.getD_eq_default _ _ (Nat.le_of_not_lt hj)]
  set p := q * ((l.length : ℚ) - 1)
  have hfl : (⌊p⌋ : ℚ) ≤ p := Int.floor_le p
  have hfu : p < ⌊p⌋ + 1 := Int.lt_floor_add_one p
  set a := (List.insertionSort (· ≤ ·) l).getD (⌊p⌋).toNat 0
  set b := (List.insertionSort (· ≤ ·) l).getD ((⌊p⌋).toNat + 1) 0
  have ha : 0 ≤ a := hget _
  have hb : 0 ≤ b := hget _
  have : a + (p - (⌊p⌋ : ℚ)) * (b - a) = (1 - (p - (⌊p⌋ : ℚ))) * a + (p - (⌊p⌋ : ℚ)) * b := by
    ring
  rw [this]
  exact add_nonneg (mul_nonneg (by linarith) ha) (mul_nonneg (by linarith) hb)

/-! ### Claim theorem for ternarize -/

/-- C6: with `t` the sparsity-quantile of the elementwise absolute
values, every element with `value > t` maps to +1, every element with
`value < −t` maps to −1, every other element (ties included) maps to 0;
hence every output element is in {−1, 0, +1} and every nonzero output
element has the sign of its input element. -/
theorem ternarize_element_policy (sparsity : ℚ) (v : List ℚ)
    (hs0 : 0 ≤ sparsity) (hs1 : sparsity ≤ 1) (hv : v ≠ []) (i : ℕ) (hi : i < v.length) :
    (v.getD i 0 > ternary_threshold sparsity v → (ternarize sparsity v).getD i 0 = 1) ∧
    (v.getD i 0 < -ternary_threshold sparsity v → (ternarize sparsity v).getD i 0 = -1) ∧
    (¬v.getD i 0 > ternary_threshold sparsity v →
      ¬v.getD i 0 < -ternary_threshold sparsity v → (ternarize sparsity v).getD i 0 = 0) ∧
    ((ternarize sparsity v).getD i 0 = -1 ∨ (ternarize sparsity v).getD i 0 = 0 ∨
      (ternarize sparsity v).getD i 0 = 1) ∧
    ((ternarize sparsity v).getD i 0 = 1 → 0 < v.getD i 0) ∧
    ((ternarize sparsity v).getD i 0 = -1 → v.getD i 0 < 0) := by
  set t := ternary_threshold sparsity v with htdef
  set x := v.getD i 0 with hxdef
  set o := (ternarize sparsity v).getD i 0 with hodef
  have ht : 0 ≤ t :=
    quantile_nonneg sparsity (v.map fun y => |y|) (by
      intro y hy
      obtain ⟨z, -, rfl⟩ := List.mem_map.mp hy
      exact abs_nonneg z)
  have hilen : i < (ternarize sparsity v).length := by
    simpa [ternarize] using hi
  have ho : o = if x < -t then -1 else if x > t then 1 else 0 := by
    rw [hodef, List.getD_eq_getElem _ _ hilen]
    simp only [ternarize, List.getElem_map]
    rw [show v[i] = x from (List.getD_eq_getElem v 0 hi).symm]
  refine ⟨?_, ?_, ?_, ?_, ?_, ?_⟩
  · intro hgt
    rw [ho, if_neg (by linarith), if_pos hgt]
  · intro hlt
    rw [ho, if_pos hlt]
  · intro hngt hnlt
    rw [ho, if_neg hnlt, if_neg hngt]
  · rw [ho]
    split_ifs <;> simp
  · intro h1
    rw [ho] at h1
    split_ifs at h1 with hc1 hc2
    · exact absurd h1 (by norm_num)
    · linarith
    · exact absurd h1 (by norm_num)
  · intro h1
    rw [ho] at h1
    split_ifs at h1 with hc1 hc2
    · linarith
    · exact absurd h1 (by norm_num)
    · exact absurd h1 (by norm_num)

/-- Witness for C6 at `sparsity = 1`, `v = [2, -3, 1, 0]`, `i = 0`. -/
theorem ternarize_element_policy_witness :
    ((0 : ℚ) ≤ 1 ∧ (1 : ℚ) ≤ 1 ∧ ([2, -3, 1, 0] : List ℚ) ≠ [] ∧
      0 < ([2, -3, 1, 0] : List ℚ).length) ∧
    ((([2, -3, 1, 0] : List ℚ).getD 0 0 > ternary_threshold 1 [2, -3, 1, 0] →
        (ternarize 1 ([2, -3, 1, 0] : List ℚ)).getD 0 0 = 1) ∧
     (([2, -3, 1, 0] : List ℚ).getD 0 0 < -ternary_threshold 1 [2, -3, 1, 0] →
        (ternarize 1 ([2, -3, 1, 0] : List ℚ)).getD 0 0 = -1) ∧
     (¬([2, -3, 1, 0] : List ℚ).getD 0 0 > ternary_threshold 1 [2, -3, 1, 0] →
        ¬([2, -3, 1, 0] : List ℚ).getD 0 0 < -ternary_threshold 1 [2, -3, 1, 0] →
        (ternarize 1 ([2, -3, 1, 0] : List ℚ)).getD 0 0 = 0) ∧
     ((ternarize 1 ([2, -3, 1, 0] : List ℚ)).getD 0 0 = -1 ∨
        (ternarize 1 ([2, -3, 1, 0] : List ℚ)).getD 0 0 = 0 ∨
        (ternarize 1 ([2, -3, 1, 0] : List ℚ)).getD 0 0 = 1) ∧
     ((ternarize 1 ([2, -3, 1, 0] : List ℚ)).getD 0 0 = 1 →
        0 < ([2, -3, 1, 0] : List ℚ).getD 0 0) ∧
     ((ternarize 1 ([2, -3, 1, 0] : List ℚ)).getD 0 0 = -1 →
        ([2, -3, 1, 0] : List ℚ).getD 0 0 < 0)) :=
  ⟨⟨zero_le_one, le_refl 1, by simp, by simp⟩,
   ternarize_element_policy 1 [2, -3, 1, 0] zero_le_one (le_refl 1) (by simp) 0 (by simp)⟩

/-! ## `HDCTextEncoder` (text_encoder.py)

torch's global random generator is stateful; the encoder draws from it
unseeded in `_generate_position_vectors` and after a `manual_seed` call
in `_get_token_vector`.  We model the generator by explicit state
passing: constructing an encoder takes the ambient state as an argument,
and `manual_seed` replaces the state by a pure function of the seed. -/

/-- Model of `torchhd.random(1, d)` at a given generator state.  The
concrete mixing function stands in for torch's actual (external-library)
generator; the development depends only on it being a fixed
deterministic function of the state and the dimension. -/
def randBits (state : ℕ) (d : ℕ) : List Bool :=
  (List.range d).map fun i => decide ((((state + i) * 2654435761) >>> 7) % 2 = 1)

/-- Model of `torch.manual_seed`: the generator state becomes a pure
function of the seed (the identity, without loss of generality). -/
def manualSeedState (seed : ℕ) : ℕ := seed

/-- Modelled stand-in for the per-token seed
`int(hashlib.md5(token.encode()).hexdigest()[:8], 16)` (an
external-library hash): a fixed deterministic 32-bit value computed from
the token's characters alone.  No construction-time seed enters it, as
in the source. -/
def tokenSeed (token : String) : ℕ :=
  token.data.foldl (fun h c => (h * 31 + c.toNat) % 4294967296) 5381

/-- `torch.roll(base, shifts=i, dims=1)`: cyclic shift toward higher
indices by `i`. -/
def roll (v : List Bool) (k : ℕ) : List Bool :=
  v.rotateRight k

/-- The configuration and construction-time state of `HDCTextEncoder`:
`__init__` stores `dimensions` and `ngram_size` unvalidated and
generates the position vectors once. -/
structure HDCTextEncoder where
  dimensions : ℕ
  ngram_size : ℕ
  position_vectors : List (List Bool)

/-- `HDCTextEncoder._generate_position_vectors`: one draw from the
ambient global generator — with no `manual_seed` call before it — then
cyclic shifts by 0, …, ngram_size − 1. -/
def generate_position_vectors (dimensions ngram_size rngState : ℕ) : List (List Bool) :=
  let base := randBits rngState dimensions
  (List.range ngram_size).map fun i => roll base i

/-- `HDCTextEncoder.__init__`: no validation of any argument. -/
def mkHDCTextEncoder (dimensions ngram_size rngState : ℕ) : HDCTextEncoder :=
  { dimensions := dimensions
    ngram_size := ngram_size
    position_vectors := generate_position_vectors dimensions ngram_size rngState }

/-- `HDCTextEncoder._get_token_vector`: seed the generator with the
token hash, then draw.  A pure function of the token and the dimension —
the memoizing `token_vectors` cache returns the identical vector, so it
is semantically transparent and not modelled. -/
def get_token_vector (enc : HDCTextEncoder) (token : String) : List Bool :=
  randBits (manualSeedState (tokenSeed token)) enc.dimensions

/-- ASCII fragment of Python `str.lower` (the repository's demo texts
are ASCII). -/
def pyLower (c : Char) : Char :=
  if 65 ≤ c.toNat ∧ c.toNat ≤ 90 then Char.ofNat (c.toNat + 32) else c

/-- Python `str.split()` with no argument: split on whitespace runs,
dropping empty chunks. -/
def splitWsAux : List Char → List Char → List String
  | [], acc => if acc.isEmpty then [] else [String.mk acc.reverse]
  | c :: rest, acc =>
      if c.isWhitespace then
        if acc.isEmpty then splitWsAux rest []
        else String.mk acc.reverse :: splitWsAux rest []
      else splitWsAux rest (c :: acc)

/-- `HDCTextEncoder._tokenize`: `text.lower().split()`. -/
def tokenize (text : String) : List String :=
  splitWsAux (text.data.map pyLower) []

/-- `HDCTextEncoder._encode_ngram`: starting from the all-zero vector,
XOR-bind each token vector with the position vector of its index and
XOR the result into the accumulator. -/
def encode_ngram (enc : HDCTextEncoder) (ngram : List String) : List Bool :=
  ngram.enum.foldl
    (fun acc p =>
      List.zipWith xor acc
        (List.zipWith xor (get_token_vector enc p.2) (enc.position_vectors.getD p.1 [])))
    (List.replicate enc.dimensions false)

/-- The majority-vote bundling step of `HDCTextEncoder.encode` (lines
134–144): a single n-gram vector is returned as is; otherwise the output
bit at dimension `i` is `vote_count > len(ngram_vectors) / 2` (float
division, strict comparison). -/
def bundle (dimensions : ℕ) (ngram_vectors : List (List Bool)) : List Bool :=
  match ngram_vectors with
  | [v] => v
  | vs => (List.range dimensions).map fun i =>
      decide (((vs.countP fun v => v.getD i false : ℕ) : ℚ) > (vs.length : ℚ) / 2)

/-- `HDCTextEncoder.encode`: tokenize, zero vector for empty input,
slide a stride-1 window padded with `'<PAD>'`, encode each n-gram, and
bundle. -/
def encode (enc : HDCTextEncoder) (text : String) : List Bool :=
  let tokens := tokenize text
  if tokens.length = 0 then List.replicate enc.dimensions false
  else
    let ngrams := (List.range tokens.length).map fun i =>
      let ngram := (tokens.drop i).take enc.ngram_size
      ngram ++ List.replicate (enc.ngram_size - ngram.length) "<PAD>"
    bundle enc.dimensions (ngrams.map fun ngram => encode_ngram enc ngram)

/-! ## `TernaryHDCEncoder.__init__` (ternary_encoder.py, lines 34–55) -/

/-- The stored configuration of `TernaryHDCEncoder` (the external base
model and the seed-42 projection matrix are loaded alongside and are out
of the claims' scope). -/
structure TernaryHDCEncoder where
  hd_dim : ℕ
  sparsity : ℚ

/-- `TernaryHDCEncoder.__init__`: stores its parameters unvalidated; the
body contains no `raise` of any kind. -/
def mkTernaryHDCEncoder (hd_dim : ℕ) (sparsity : ℚ) : TernaryHDCEncoder :=
  { hd_dim := hd_dim, sparsity := sparsity }

/-! ### Claim theorems for the text encoder and construction -/

/-- Reading one bit of the majority-vote branch of `bundle`. -/
lemma bundle_map_getD (dimensions : ℕ) (vs : List (List Bool)) (i : ℕ) (hi : i < dimensions)
    (hb : bundle dimensions vs = (List.range dimensions).map fun j =>
      decide (((vs.countP fun v => v.getD j false : ℕ) : ℚ) > (vs.length : ℚ) / 2)) :
    ((bundle dimensions vs).getD i false = true ↔
      ((vs.countP fun v => v.getD i false : ℕ) : ℚ) > (vs.length : ℚ) / 2) := by
  rw [hb, List.getD_eq_getElem _ _ (by simpa using hi)]
  simp

/-- C8: when bundling the bound n-gram vectors, the output bit at
dimension `i` is 1 iff strictly more than `n/2` of the inputs have bit 1
at `i` (so even-`n` ties resolve to 0), and bundling a single input
vector is the identity. -/
theorem bundle_majority_vote (dimensions : ℕ) (ngram_vectors : List (List Bool))
    (h : ∀ v ∈ ngram_vectors, v.length = dimensions) (i : ℕ) (hi : i < dimensions) :
    ((bundle dimensions ngram_vectors).getD i false = true ↔
      ((ngram_vectors.countP fun v => v.getD i false : ℕ) : ℚ)
        > (ngram_vectors.length : ℚ) / 2) ∧
    (∀ w : List Bool, bundle dimensions [w] = w) := by
  refine ⟨?_, fun w => rfl⟩
  rcases ngram_vectors with _ | ⟨v, _ | ⟨w, rest⟩⟩
  · exact bundle_map_getD dimensions [] i hi rfl
  · rw [show bundle dimensions [v] = v from rfl]
    rcases hvb : v.getD i false <;> simp_all [List.countP_cons] <;> norm_num
  · exact bundle_map_getD dimensions (v :: w :: rest) i hi rfl

/-- Witness for C8 at three 2-dimensional vectors and `i = 0` (two of
three ones at dimension 0). -/
theorem bundle_majority_vote_witness :
    ((∀ v ∈ [[true, false], [true, true], [false, true]], v.length = 2) ∧ 0 < 2) ∧
    (((bundle 2 [[true, false], [true, true], [false, true]]).getD 0 false = true ↔
        (([[true, false], [true, true], [false, true]].countP
            fun v => v.getD 0 false : ℕ) : ℚ)
          > (([[true, false], [true, true], [false, true]] : List (List Bool)).length : ℚ) / 2) ∧
      (∀ w : List Bool, bundle 2 [w] = w)) :=
  ⟨⟨by decide, by decide⟩,
   bundle_majority_vote 2 [[true, false], [true, true], [false, true]] (by decide) 0 (by decide)⟩

/-- Unfolding `_get_token_vector` on a freshly constructed encoder: the
result depends only on the token and the dimension, not on the ambient
generator state used at construction. -/
lemma get_token_vector_mk (dimensions ngram_size rngState : ℕ) (token : String) :
    get_token_vector (mkHDCTextEncoder dimensions ngram_size rngState) token
      = randBits (manualSeedState (tokenSeed token)) dimensions := rfl

/-- Concrete evaluation: at ambient generator states 0 and 1, two
encoders with `dimensions = 4`, `ngram_size = 1` encode `"a"`
differently. -/
lemma encode_state_dependent_example :
    encode (mkHDCTextEncoder 4 1 0) "a" ≠ encode (mkHDCTextEncoder 4 1 1) "a" := by
  decide

/-- C4 counterexample: two encoders constructed with the identical
configuration (`dimensions = 4`, `ngram_size = 1`; the constructor has
no seed parameter) at different ambient states of the global random
generator produce different encodings of the same text `"a"`, because
`_generate_position_vectors` draws from the global generator without
seeding it. -/
theorem same_config_encoders_encodings_differ_counterexample :
    encode (mkHDCTextEncoder 4 1 0) "a" ≠ encode (mkHDCTextEncoder 4 1 1) "a" :=
  encode_state_dependent_example

/-- C4 amended: the per-symbol vectors are a pure function of the token
alone (a stable hash of the token seeds the generator; no global seed is
combined in, and the configuration has no seed parameter), so any two
encoders with the same dimension agree on every symbol vector; but the
position vectors are drawn from the ambient unseeded global generator at
construction, so two independently constructed encoders can produce
different encodings of the same text. -/
theorem token_vectors_stable_encodings_state_dependent :
    (∀ (dimensions ngram_size rngState1 rngState2 : ℕ) (token : String),
      get_token_vector (mkHDCTextEncoder dimensions ngram_size rngState1) token
        = get_token_vector (mkHDCTextEncoder dimensions ngram_size rngState2) token) ∧
    (∃ (dimensions ngram_size rngState1 rngState2 : ℕ) (text : String),
      encode (mkHDCTextEncoder dimensions ngram_size rngState1) text
        ≠ encode (mkHDCTextEncoder dimensions ngram_size rngState2) text) :=
  ⟨by
    intro dimensions ngram_size rngState1 rngState2 token
    rw [get_token_vector_mk dimensions ngram_size rngState1 token,
      get_token_vector_mk dimensions ngram_size rngState2 token],
   ⟨4, 1, 0, 1, "a", encode_state_dependent_example⟩⟩

/-- C5 counterexample: construction with `sparsity = 2` (outside (0,1))
succeeds and stores the value — no ConfigurationError is raised — and so
does construction with zero dimension and zero ngram_size. -/
theorem construction_accepts_invalid_counterexample :
    mkTernaryHDCEncoder 10000 2 = ⟨10000, 2⟩ ∧
    ¬((0 : ℚ) < 2 ∧ (2 : ℚ) < 1) ∧
    (mkHDCTextEncoder 0 0 0).dimensions = 0 ∧ (mkHDCTextEncoder 0 0 0).ngram_size = 0 :=
  ⟨rfl, by norm_num, rfl, rfl⟩

/-- C5 amended: neither constructor validates anything — any sparsity
(including values outside (0,1)), any dimension (including 0) and any
ngram_size (including 0) are accepted and stored unchanged; no
ConfigurationError exists in the repository, so none is raised at
construction or at call time. -/
theorem construction_stores_unvalidated :
    (∀ (hd_dim : ℕ) (sparsity : ℚ),
      mkTernaryHDCEncoder hd_dim sparsity = ⟨hd_dim, sparsity⟩) ∧
    (∀ dimensions ngram_size rngState : ℕ,
      (mkHDCTextEncoder dimensions ngram_size rngState).dimensions = dimensions ∧
      (mkHDCTextEncoder dimensions ngram_size rngState).ngram_size = ngram_size) :=
  ⟨fun _ _ => rfl, fun _ _ _ => ⟨rfl, rfl⟩⟩

end SEP
